import Mathlib

/-!
# Verification of the beta-plane barotropic vorticity model

A shallow embedding of `baro_vort.py`, a pseudospectral solver for the 2D
barotropic vorticity equation on a doubly periodic beta-plane.  Floating-point
arrays are modelled as functions `Fin n → Fin n → ℂ` over the exact real and
complex numbers; the numpy FFT routines are modelled by the discrete Fourier
transform they compute.
-/

namespace BaroVort

open Finset

/-- A 2D complex field of shape `(n, n)`, as produced by numpy arrays in the
source. -/
def Field (n : ℕ) : Type := Fin n → Fin n → ℂ

/-- The unit complex exponential `exp(2πi·m/n)` used by the discrete Fourier
transform kernels. -/
noncomputable def eK (n : ℕ) (m : ℤ) : ℂ :=
  Complex.exp (2 * Real.pi * Complex.I * m / n)

/-- One-dimensional DFT with the numpy sign convention (negative exponent,
no normalization). -/
noncomputable def dft1 (n : ℕ) (v : Fin n → ℂ) (a : Fin n) : ℂ :=
  ∑ x : Fin n, v x * eK n (-((a : ℕ) * (x : ℕ) : ℤ))

/-- One-dimensional inverse DFT with the numpy convention (positive exponent,
`1/n` normalization). -/
noncomputable def idft1 (n : ℕ) (v : Fin n → ℂ) (a : Fin n) : ℂ :=
  ((n : ℂ))⁻¹ * ∑ x : Fin n, v x * eK n (((a : ℕ) * (x : ℕ) : ℤ))

/-- `numpy.fft.fftn` over axes `(0,1)`:
`A[a,b] = Σ_{x,y} φ[x,y] · exp(-2πi(a·x + b·y)/n)`. -/
noncomputable def fftn (n : ℕ) (φ : Field n) : Field n :=
  fun a b => ∑ x : Fin n, ∑ y : Fin n,
    φ x y * eK n (-((a : ℕ) * (x : ℕ) : ℤ)) * eK n (-((b : ℕ) * (y : ℕ) : ℤ))

/-- `numpy.fft.ifftn` over axes `(0,1)`:
`A[a,b] = (1/n²) Σ_{x,y} ψ[x,y] · exp(2πi(a·x + b·y)/n)`. -/
noncomputable def ifftn (n : ℕ) (ψ : Field n) : Field n :=
  fun a b => ((n : ℂ) ^ 2)⁻¹ * ∑ x : Fin n, ∑ y : Fin n,
    ψ x y * eK n (((a : ℕ) * (x : ℕ) : ℤ)) * eK n (((b : ℕ) * (y : ℕ) : ℤ))

/-- Index map of `numpy.fft.fftshift` on one axis of length `n`:
`out[i] = in[(i - n//2) mod n]`, written as `(i + (n - n/2)) mod n`. -/
def shiftIdx (n : ℕ) (hn : 0 < n) (i : Fin n) : Fin n :=
  ⟨((i : ℕ) + (n - n / 2)) % n, Nat.mod_lt _ hn⟩

/-- `numpy.fft.fftshift` applied to both axes of a 2D field. -/
def fftshift2 (n : ℕ) (hn : 0 < n) (ψ : Field n) : Field n :=
  fun i j => ψ (shiftIdx n hn i) (shiftIdx n hn j)

/-- `ft(phi)`: forward transform then center-shift (source lines 90-92). -/
noncomputable def ft (n : ℕ) (hn : 0 < n) (φ : Field n) : Field n :=
  fftshift2 n hn (fftn n φ)

/-- `ift(psi)`: undo the center-shift, then inverse transform
(source lines 94-96; the source re-applies `fftshift`, which undoes the
forward shift exactly when `n` is even). -/
noncomputable def ift (n : ℕ) (hn : 0 < n) (ψ : Field n) : Field n :=
  ifftn n (fftshift2 n hn ψ)

/-- DFT of every row of a field (transform along axis 1). -/
noncomputable def dftRows (n : ℕ) (χ : Field n) : Field n :=
  fun x y => dft1 n (χ x) y

/-- DFT of every column of a field (transform along axis 0). -/
noncomputable def dftCols (n : ℕ) (χ : Field n) : Field n :=
  fun x y => dft1 n (fun u => χ u y) x

/-- Inverse DFT of every row of a field. -/
noncomputable def idftRows (n : ℕ) (χ : Field n) : Field n :=
  fun x y => idft1 n (χ x) y

/-- Inverse DFT of every column of a field. -/
noncomputable def idftCols (n : ℕ) (χ : Field n) : Field n :=
  fun x y => idft1 n (fun u => χ u y) x

/-! ## Setup parameters and the spectral grid (source lines 59-73, 196-226) -/

/-- The configuration constants of the model.  In the source these are
module-level parameters (`N`, `domain`, `beta`, `ubar`, `tau`, `AA_FAC`,
`ALLOW_SPEEDUP`, `SPEEDUP_AT_C`, `SLOWDN_AT_C`) together with the initial
timestep chosen at setup (`dt = 0.4*16.0/nx`), which is the value the
dissipation operator `del4` is built from. -/
structure Config (n : ℕ) where
  domain : ℝ
  beta : ℝ
  ubar : ℝ
  tau : ℝ
  AA_FAC : ℝ
  ALLOW_SPEEDUP : Bool
  SPEEDUP_AT_C : ℝ
  SLOWDN_AT_C : ℝ
  dt0 : ℝ

variable {n : ℕ}

/-- `dx = domain / nx` (source line 201). -/
noncomputable def dx (c : Config n) : ℝ := c.domain / n

/-- `dk = 2.0*pi/domain` (source line 208). -/
noncomputable def dk (c : Config n) : ℝ := 2 * Real.pi / c.domain

/-- `k = np.arange(-n/2, n/2)*dk` (source line 209). -/
noncomputable def k (c : Config n) : Fin n → ℝ :=
  fun j => (((j : ℕ) : ℝ) - (n : ℝ) / 2) * dk c

/-- `l = np.arange(-n/2, n/2)*dk` (source line 210). -/
noncomputable def l (c : Config n) : Fin n → ℝ :=
  fun i => (((i : ℕ) : ℝ) - (n : ℝ) / 2) * dk c

/-- `kk, ll = np.meshgrid(k, l)` (source line 212): `kk[i,j] = k[j]`. -/
noncomputable def kk (c : Config n) : Fin n → Fin n → ℝ := fun _i j => k c j

/-- `kk, ll = np.meshgrid(k, l)` (source line 212): `ll[i,j] = l[i]`. -/
noncomputable def ll (c : Config n) : Fin n → Fin n → ℝ := fun i _j => l c i

/-- `ksq = kk**2 + ll**2` before the zero-wavenumber fix (source line 213). -/
noncomputable def ksq0 (c : Config n) : Fin n → Fin n → ℝ :=
  fun i j => kk c i j ^ 2 + ll c i j ^ 2

/-- `ksq[ksq == 0] = 1.0` (source line 214): the squared-wavenumber array
after zero entries are replaced by 1. -/
noncomputable def ksq (c : Config n) : Fin n → Fin n → ℝ :=
  fun i j => if ksq0 c i j = 0 then 1 else ksq0 c i j

/-- `rksq = 1.0 / ksq` (source line 215). -/
noncomputable def rksq (c : Config n) : Fin n → Fin n → ℝ :=
  fun i j => 1 / ksq c i j

/-- `ik = 1j*kk` (source line 217). -/
noncomputable def ik (c : Config n) : Fin n → Fin n → ℂ :=
  fun i j => Complex.I * (kk c i j : ℝ)

/-- `il = 1j*ll` (source line 218). -/
noncomputable def il (c : Config n) : Fin n → Fin n → ℂ :=
  fun i j => Complex.I * (ll c i j : ℝ)

/-- `nu = (((domain)/(np.floor(n/3)*2.0*pi))**4)/tau` (source line 222). -/
noncomputable def nu (c : Config n) : ℝ :=
  (c.domain / ((⌊(n : ℝ) / 3⌋ : ℤ) * (2 * Real.pi))) ^ 4 / c.tau

/-- `del4 = 1.0 / (1.0 + nu*ksq**2*dt)` (source line 223), built from the
setup-time `dt`. -/
noncomputable def del4 (c : Config n) : Fin n → Fin n → ℝ :=
  fun i j => 1 / (1 + nu c * ksq c i j ^ 2 * c.dt0)

/-- `k_max = AA_FAC*2*dk` (source line 225). -/
noncomputable def k_max (c : Config n) : ℝ := c.AA_FAC * 2 * dk c

/-! ## Field operators (source lines 75-143) -/

/-- Robert-Asselin filter (source lines 75-77), applied per spectral
coefficient. -/
def raw_filter (prev curr new ν : ℂ) : ℂ :=
  curr + ν * (new - 2 * curr + prev)

/-- Leapfrog time integration (source lines 86-88), per coefficient. -/
noncomputable def leapfrog (φ f : ℂ) (dt : ℝ) : ℂ := φ + 2 * (dt : ℂ) * f

/-- `np.max(np.abs(φ))`: the maximum modulus over all entries of a field. -/
noncomputable def maxAbs (hn : 0 < n) (φ : Field n) : ℝ :=
  Finset.sup' Finset.univ ⟨(⟨0, hn⟩, ⟨0, hn⟩), Finset.mem_univ _⟩
    fun p : Fin n × Fin n => Complex.abs (φ p.1 p.2)

/-- Courant number from the velocity fields and step sizes
(source lines 79-84): `maxu = max|psiy|`, `maxv = max|psix|`,
`c = (maxu + maxv)*dt/dx`. -/
noncomputable def courant_number (hn : 0 < n) (psix psiy : Field n)
    (dx dt : ℝ) : ℝ :=
  (maxAbs hn psiy + maxAbs hn psix) * dt / dx

/-- Spectral gradient (source lines 127-132): `(ik·φ̂, il·φ̂)`. -/
noncomputable def grad (c : Config n) (φt : Field n) : Field n × Field n :=
  (fun i j => ik c i j * φt i j, fun i j => il c i j * φt i j)

/-- `anti_alias` (source lines 141-143): zero every coefficient with
`|kk| ≥ k_max` or `|ll| ≥ k_max`, functionally. -/
noncomputable def anti_alias (c : Config n) (φt : Field n) (km : ℝ) : Field n :=
  fun i j => if |kk c i j| ≥ km ∨ |ll c i j| ≥ km then 0 else φt i j

/-! ## Simulation state and the time step (source lines 145-192) -/

/-- The mutable module-level state threaded through `integrate`:
`_zt` (filtered previous), `zt` (current), `zt_` (provisional next),
`z` (physical field), and the adaptive timestep `dt`. -/
structure SimState (n : ℕ) where
  ztPrev : Field n
  zt : Field n
  ztNext : Field n
  z : Field n
  dt : ℝ

/-- One call of `integrate()` (source lines 145-192), returning the updated
state and the Courant number `c` computed in this call. -/
noncomputable def integrate (hn : 0 < n) (c : Config n) (s : SimState n) :
    SimState n × ℝ :=
  let psit : Field n := fun i j => -rksq c i j * s.zt i j
  let psixt := (grad c psit).1
  let psiyt := (grad c psit).2
  let zxt := (grad c s.zt).1
  let zyt := (grad c s.zt).2
  let z := ift n hn s.zt
  let psix := ift n hn psixt
  let psiy := ift n hn psiyt
  let zx := ift n hn zxt
  let zy := ift n hn zyt
  let cn := courant_number hn psix psiy (dx c) s.dt
  let dt' := if cn > c.SLOWDN_AT_C then 0.9 * s.dt
    else if cn < c.SPEEDUP_AT_C ∧ c.ALLOW_SPEEDUP = true then 1.1 * s.dt
    else s.dt
  let jac : Field n := fun i j =>
    psix i j * zy i j - psiy i j * zx i j + (c.ubar : ℂ) * zx i j
  let jact := ft n hn jac
  let jact' := anti_alias c jact (k_max c)
  let rhs : Field n := fun i j => -jact' i j - (c.beta : ℂ) * psixt i j
  let zt1 : Field n := fun i j => leapfrog (s.ztPrev i j) (rhs i j) dt'
  let ztN : Field n := fun i j => zt1 i j * (del4 c i j : ℂ)
  let ztPrevN : Field n := fun i j =>
    raw_filter (s.ztPrev i j) (s.zt i j) (ztN i j) 0.01
  (⟨ztPrevN, ztN, ztN, z, dt'⟩, cn)

/-! ## Named components of one step, used to state the step's contract -/

/-- The Poisson solve of the step: `F[ψ] = -rksq · F[ζ]` (source line 153). -/
noncomputable def psiHat (c : Config n) (zt : Field n) : Field n :=
  fun i j => -rksq c i j * zt i j

/-- `psix = ift(psixt)` of the step (source lines 154, 159). -/
noncomputable def psixF (hn : 0 < n) (c : Config n) (zt : Field n) : Field n :=
  ift n hn (grad c (psiHat c zt)).1

/-- `psiy = ift(psiyt)` of the step (source lines 154, 160). -/
noncomputable def psiyF (hn : 0 < n) (c : Config n) (zt : Field n) : Field n :=
  ift n hn (grad c (psiHat c zt)).2

/-- `zx = ift(zxt)` of the step (source lines 155, 161). -/
noncomputable def zxF (hn : 0 < n) (c : Config n) (zt : Field n) : Field n :=
  ift n hn (grad c zt).1

/-- `zy = ift(zyt)` of the step (source lines 155, 162). -/
noncomputable def zyF (hn : 0 < n) (c : Config n) (zt : Field n) : Field n :=
  ift n hn (grad c zt).2

/-- The physical-space Jacobian of the step:
`jac = psix*zy - psiy*zx + ubar*zx` (source line 174). -/
noncomputable def jacF (hn : 0 < n) (c : Config n) (zt : Field n) : Field n :=
  fun i j => psixF hn c zt i j * zyF hn c zt i j
    - psiyF hn c zt i j * zxF hn c zt i j + (c.ubar : ℂ) * zxF hn c zt i j

/-- The right-hand side of the step:
`rhs = -anti_alias(ft(jac)) - beta*psixt` (source lines 177-185). -/
noncomputable def rhsF (hn : 0 < n) (c : Config n) (zt : Field n) : Field n :=
  fun i j => -(anti_alias c (ft n hn (jacF hn c zt)) (k_max c) i j)
    - (c.beta : ℂ) * (grad c (psiHat c zt)).1 i j

/-- The Courant number computed inside the step, from the current step's
velocities and the timestep held at entry (source line 165). -/
noncomputable def courantOf (hn : 0 < n) (c : Config n) (s : SimState n) : ℝ :=
  courant_number hn (psixF hn c s.zt) (psiyF hn c s.zt) (dx c) s.dt

/-- The timestep after the step's Courant adjustment (source lines 166-171). -/
noncomputable def dtAfter (hn : 0 < n) (c : Config n) (s : SimState n) : ℝ :=
  if courantOf hn c s > c.SLOWDN_AT_C then 0.9 * s.dt
  else if courantOf hn c s < c.SPEEDUP_AT_C ∧ c.ALLOW_SPEEDUP = true then 1.1 * s.dt
  else s.dt

/-- The identically zero field. -/
def zeroField : Field n := fun _ _ => 0

/-- The index `n/2` of the centered zero-wavenumber bin. -/
def halfIdx (hn : 0 < n) : Fin n :=
  ⟨n / 2, Nat.div_lt_self hn (by norm_num)⟩

/-- Iterating the step map `m` times from a starting state. -/
noncomputable def stepIter (hn : 0 < n) (c : Config n) :
    ℕ → SimState n → SimState n
  | 0, s => s
  | m + 1, s => (integrate hn c (stepIter hn c m s)).1

/-! ## Initial-condition registry (source lines 102-124, 238-241) -/

/-- The two initial conditions registered by the `@initial(...)` decorators
(source lines 113 and 117). -/
inductive IcName where
  | random : IcName
  | spot : IcName
deriving DecidableEq

/-- `ICS`: the registry filled by the decorator (source lines 102-109),
mapping each registered name to its initial-condition function. -/
def ICS : List (String × IcName) :=
  [("random", IcName.random), ("spot", IcName.spot)]

/-- The setup-time lookup `ic_fn = ICS.get(IC)` followed by
`if ic_fn is None: raise ...` (source lines 238-241): produce the registered
initial condition or abort with an error before any stepping happens. -/
def setupIC (name : String) : Except String IcName :=
  match List.lookup name ICS with
  | some f => Except.ok f
  | none => Except.error ("Unknown initial condition " ++ name)

/-! ## Concrete instances used to exercise the theorems -/

/-- A concrete configuration at resolution 1 used to instantiate the general
theorems. -/
noncomputable def cW : Config 1 :=
  ⟨1, 1.7, 0, 0.1, 1, false, 0.6, 0.8, 0.05⟩

/-- A concrete quiescent state at resolution 1. -/
noncomputable def sW : SimState 1 :=
  ⟨zeroField, zeroField, zeroField, zeroField, 0.05⟩

/-- A concrete configuration at resolution 2 with `AA_FAC = n`. -/
noncomputable def c2 : Config 2 :=
  ⟨1, 1.7, 0, 0.1, 2, false, 0.6, 0.8, 0.05⟩

/-- A concrete configuration at resolution 1 with `AA_FAC = 0`. -/
noncomputable def cW0 : Config 1 :=
  ⟨1, 1.7, 0, 0.1, 0, false, 0.6, 0.8, 0.05⟩

/-- The configuration of the source itself: `N = 128`, `domain = 1.0`,
`beta = 1.7`, `tau = 0.1`, `AA_FAC = N/6`, speedup disabled,
`dt = 0.4*16/128`. -/
noncomputable def c128 : Config 128 :=
  ⟨1, 1.7, 0, 0.1, 128 / 6, false, 0.6, 0.8, 0.05⟩

/-- A concrete configuration at resolution 4. -/
noncomputable def c4 : Config 4 :=
  ⟨1, 1.7, 0, 0.1, 4 / 6, false, 0.6, 0.8, 0.1⟩

lemma eK_add (n : ℕ) (a b : ℤ) : eK n (a + b) = eK n a * eK n b := by
  rw [eK, eK, eK, ← Complex.exp_add]
  congr 1
  push_cast
  ring

lemma eK_zero (n : ℕ) : eK n 0 = 1 := by
  simp [eK]

lemma eK_mul_nat (n : ℕ) (m : ℤ) (j : ℕ) : eK n (m * j) = eK n m ^ j := by
  induction j with
  | zero => simp [eK_zero]
  | succ j ih =>
      have : m * (j + 1 : ℕ) = m * j + m := by push_cast; ring
      rw [this, eK_add, ih, pow_succ]

lemma eK_dvd (n : ℕ) (m : ℤ) (h : (n : ℤ) ∣ m) : eK n m = 1 := by
  obtain ⟨t, ht⟩ := h
  rcases Nat.eq_zero_or_pos n with hn | hn
  · subst hn; simp [eK]
  · have hn' : (n : ℂ) ≠ 0 := by exact_mod_cast Nat.pos_iff_ne_zero.mp hn
    rw [eK, ht]
    have : 2 * (Real.pi : ℂ) * Complex.I * ((n : ℤ) * t : ℤ) / n
        = t * (2 * Real.pi * Complex.I) := by
      push_cast
      field_simp
      ring
    rw [this, Complex.exp_int_mul_two_pi_mul_I]

lemma eK_eq_one_iff (n : ℕ) (hn : 0 < n) (m : ℤ) :
    eK n m = 1 ↔ (n : ℤ) ∣ m := by
  constructor
  · intro h
    rw [eK, Complex.exp_eq_one_iff] at h
    obtain ⟨t, ht⟩ := h
    have hn' : (n : ℂ) ≠ 0 := by exact_mod_cast Nat.pos_iff_ne_zero.mp hn
    have h2 : (2 * (Real.pi : ℂ) * Complex.I) ≠ 0 := by
      simp [Real.pi_ne_zero, Complex.I_ne_zero]
    have key : ((m : ℂ)) = (t : ℂ) * (n : ℂ) := by
      have := ht
      field_simp at this
      have h3 : (2 : ℂ) * Real.pi * Complex.I * m
          = (2 : ℂ) * Real.pi * Complex.I * (t * n) := by
        rw [this]; ring
      have := mul_left_cancel₀ h2 h3
      linear_combination this
    have : m = t * n := by exact_mod_cast key
    exact ⟨t, by rw [this]; ring⟩
  · exact eK_dvd n m

/-- Orthogonality of the DFT kernels: summing `exp(2πi·m·x/n)` over one full
period gives `n` when `n ∣ m` and `0` otherwise. -/
lemma sum_eK (n : ℕ) (hn : 0 < n) (m : ℤ) :
    ∑ x : Fin n, eK n (m * (x : ℕ)) = if (n : ℤ) ∣ m then (n : ℂ) else 0 := by
  have hterm : ∀ x : Fin n, eK n (m * (x : ℕ)) = eK n m ^ (x : ℕ) :=
    fun x => eK_mul_nat n m x
  rw [Finset.sum_congr rfl (fun x _ => hterm x), Fin.sum_univ_eq_sum_range]
  by_cases hdvd : (n : ℤ) ∣ m
  · simp [eK_dvd n m hdvd, hdvd]
  · have hne : eK n m ≠ 1 := fun h => hdvd ((eK_eq_one_iff n hn m).mp h)
    have hpow : eK n m ^ n = 1 := by
      rw [← eK_mul_nat n m n]
      exact eK_dvd n _ ⟨m, by ring⟩
    rw [geom_sum_eq hne n, hpow]
    simp [hdvd]

lemma fin_dvd_sub_iff (n : ℕ) (a u : Fin n) :
    (n : ℤ) ∣ ((a : ℕ) - (u : ℕ) : ℤ) ↔ u = a := by
  constructor
  · intro h
    have ha := a.isLt
    have hu := u.isLt
    have hz : ((a : ℕ) - (u : ℕ) : ℤ) = 0 := by
      refine Int.eq_zero_of_dvd_of_natAbs_lt_natAbs h ?_
      omega
    exact Fin.ext (by omega)
  · rintro rfl; simp

/-- Inverting the one-dimensional DFT recovers the original vector. -/
lemma idft1_dft1 (n : ℕ) (hn : 0 < n) (v : Fin n → ℂ) :
    idft1 n (dft1 n v) = v := by
  funext a
  have hn' : (n : ℂ) ≠ 0 := by exact_mod_cast Nat.pos_iff_ne_zero.mp hn
  rw [idft1]
  have step1 : ∀ x : Fin n,
      dft1 n v x * eK n (((a : ℕ) * (x : ℕ) : ℤ))
        = ∑ u : Fin n, v u * eK n ((((a : ℕ) - (u : ℕ) : ℤ)) * (x : ℕ)) := by
    intro x
    rw [dft1, Finset.sum_mul]
    refine Finset.sum_congr rfl fun u _ => ?_
    rw [mul_assoc, ← eK_add]
    congr 2
    ring
  rw [Finset.sum_congr rfl fun x _ => step1 x, Finset.sum_comm]
  have step2 : ∀ u : Fin n,
      ∑ x : Fin n, v u * eK n ((((a : ℕ) - (u : ℕ) : ℤ)) * (x : ℕ))
        = v u * (if (n : ℤ) ∣ ((a : ℕ) - (u : ℕ) : ℤ) then (n : ℂ) else 0) := by
    intro u
    rw [← Finset.mul_sum, sum_eK n hn]
  rw [Finset.sum_congr rfl fun u _ => step2 u]
  have step3 : ∀ u : Fin n,
      v u * (if (n : ℤ) ∣ ((a : ℕ) - (u : ℕ) : ℤ) then (n : ℂ) else 0)
        = if u = a then v u * n else 0 := by
    intro u
    by_cases h : u = a
    · simp [h, fin_dvd_sub_iff n a u, (fin_dvd_sub_iff n a u).mpr h]
    · have hnd : ¬ (n : ℤ) ∣ ((a : ℕ) - (u : ℕ) : ℤ) :=
        fun hd => h ((fin_dvd_sub_iff n a u).mp hd)
      simp [h, hnd]
  rw [Finset.sum_congr rfl fun u _ => step3 u, Finset.sum_ite_eq' Finset.univ a]
  field_simp

lemma shiftIdx_shiftIdx (n : ℕ) (hn : 0 < n) (hev : n % 2 = 0) (i : Fin n) :
    shiftIdx n hn (shiftIdx n hn i) = i := by
  have h2 : n - n / 2 = n / 2 := by omega
  apply Fin.ext
  show (((i : ℕ) + (n - n / 2)) % n + (n - n / 2)) % n = (i : ℕ)
  rw [h2, Nat.mod_add_mod]
  have h3 : (i : ℕ) + n / 2 + n / 2 = (i : ℕ) + n := by omega
  rw [h3, Nat.add_mod_right, Nat.mod_eq_of_lt i.isLt]

lemma fftshift2_fftshift2 (n : ℕ) (hn : 0 < n) (hev : n % 2 = 0) (ψ : Field n) :
    fftshift2 n hn (fftshift2 n hn ψ) = ψ := by
  funext i j
  show ψ (shiftIdx n hn (shiftIdx n hn i)) (shiftIdx n hn (shiftIdx n hn j)) = ψ i j
  rw [shiftIdx_shiftIdx n hn hev i, shiftIdx_shiftIdx n hn hev j]

lemma fftn_factor (n : ℕ) (φ : Field n) :
    fftn n φ = dftCols n (dftRows n φ) := by
  funext a b
  simp only [fftn, dftCols, dftRows, dft1]
  refine Finset.sum_congr rfl fun u _ => ?_
  rw [Finset.sum_mul]
  refine Finset.sum_congr rfl fun v _ => ?_
  ring

lemma ifftn_factor (n : ℕ) (ψ : Field n) :
    ifftn n ψ = idftCols n (idftRows n ψ) := by
  funext a b
  simp only [ifftn, idftCols, idftRows, idft1]
  have step : ∀ u : Fin n,
      (((n : ℂ))⁻¹ * ∑ v : Fin n, ψ u v * eK n (((b : ℕ) * (v : ℕ) : ℤ)))
          * eK n (((a : ℕ) * (u : ℕ) : ℤ))
        = ((n : ℂ))⁻¹ * ∑ v : Fin n,
            ψ u v * eK n (((a : ℕ) * (u : ℕ) : ℤ)) * eK n (((b : ℕ) * (v : ℕ) : ℤ)) := by
    intro u
    rw [mul_assoc, Finset.sum_mul]
    congr 1
    refine Finset.sum_congr rfl fun v _ => ?_
    ring
  calc ((n : ℂ) ^ 2)⁻¹ * ∑ x : Fin n, ∑ y : Fin n,
        ψ x y * eK n (((a : ℕ) * (x : ℕ) : ℤ)) * eK n (((b : ℕ) * (y : ℕ) : ℤ))
      = ((n : ℂ))⁻¹ * (((n : ℂ))⁻¹ * ∑ x : Fin n, ∑ y : Fin n,
          ψ x y * eK n (((a : ℕ) * (x : ℕ) : ℤ)) * eK n (((b : ℕ) * (y : ℕ) : ℤ))) := by
        rw [← mul_assoc, sq, mul_inv]
    _ = ((n : ℂ))⁻¹ * ∑ x : Fin n, (((n : ℂ))⁻¹ * ∑ y : Fin n,
          ψ x y * eK n (((a : ℕ) * (x : ℕ) : ℤ)) * eK n (((b : ℕ) * (y : ℕ) : ℤ))) := by
        congr 1
        exact Finset.mul_sum _ _ _
    _ = ((n : ℂ))⁻¹ * ∑ x : Fin n,
          (((n : ℂ))⁻¹ * ∑ y : Fin n, ψ x y * eK n (((b : ℕ) * (y : ℕ) : ℤ)))
            * eK n (((a : ℕ) * (x : ℕ) : ℤ)) := by
        congr 1
        exact Finset.sum_congr rfl fun u _ => (step u).symm

lemma idftRows_dftRows (n : ℕ) (hn : 0 < n) (φ : Field n) :
    idftRows n (dftRows n φ) = φ := by
  funext x y
  show idft1 n (dft1 n (φ x)) y = φ x y
  rw [idft1_dft1 n hn]

lemma idftCols_dftCols (n : ℕ) (hn : 0 < n) (φ : Field n) :
    idftCols n (dftCols n φ) = φ := by
  funext x y
  show idft1 n (dft1 n (fun w => φ w y)) x = φ x y
  rw [idft1_dft1 n hn]

lemma dftCols_idftRows_comm (n : ℕ) (χ : Field n) :
    dftCols n (idftRows n χ) = idftRows n (dftCols n χ) := by
  funext x y
  simp only [dftCols, idftRows, dft1, idft1]
  have step : ∀ u : Fin n,
      (((n : ℂ))⁻¹ * ∑ v : Fin n, χ u v * eK n (((y : ℕ) * (v : ℕ) : ℤ)))
          * eK n (-((x : ℕ) * (u : ℕ) : ℤ))
        = ((n : ℂ))⁻¹ * ∑ v : Fin n,
            χ u v * eK n (((y : ℕ) * (v : ℕ) : ℤ)) * eK n (-((x : ℕ) * (u : ℕ) : ℤ)) := by
    intro u
    rw [mul_assoc, Finset.sum_mul]
  calc ∑ u : Fin n,
        (((n : ℂ))⁻¹ * ∑ v : Fin n, χ u v * eK n (((y : ℕ) * (v : ℕ) : ℤ)))
          * eK n (-((x : ℕ) * (u : ℕ) : ℤ))
      = ∑ u : Fin n, ((n : ℂ))⁻¹ * ∑ v : Fin n,
          χ u v * eK n (((y : ℕ) * (v : ℕ) : ℤ)) * eK n (-((x : ℕ) * (u : ℕ) : ℤ)) :=
        Finset.sum_congr rfl fun u _ => step u
    _ = ((n : ℂ))⁻¹ * ∑ u : Fin n, ∑ v : Fin n,
          χ u v * eK n (((y : ℕ) * (v : ℕ) : ℤ)) * eK n (-((x : ℕ) * (u : ℕ) : ℤ)) :=
        (Finset.mul_sum _ _ _).symm
    _ = ((n : ℂ))⁻¹ * ∑ v : Fin n, ∑ u : Fin n,
          χ u v * eK n (((y : ℕ) * (v : ℕ) : ℤ)) * eK n (-((x : ℕ) * (u : ℕ) : ℤ)) := by
        rw [Finset.sum_comm]
    _ = ((n : ℂ))⁻¹ * ∑ v : Fin n,
          (∑ u : Fin n, χ u v * eK n (-((x : ℕ) * (u : ℕ) : ℤ)))
            * eK n (((y : ℕ) * (v : ℕ) : ℤ)) := by
        congr 1
        refine Finset.sum_congr rfl fun v _ => ?_
        rw [Finset.sum_mul]
        refine Finset.sum_congr rfl fun u _ => ?_
        ring

/-- The 2D inverse DFT inverts the 2D DFT exactly. -/
lemma ifftn_fftn (n : ℕ) (hn : 0 < n) (φ : Field n) :
    ifftn n (fftn n φ) = φ := by
  rw [fftn_factor, ifftn_factor, ← dftCols_idftRows_comm,
    idftRows_dftRows n hn, idftCols_dftCols n hn]

/-! ## Structural equations of one step -/

lemma integrate_snd (hn : 0 < n) (c : Config n) (s : SimState n) :
    (integrate hn c s).2 = courantOf hn c s := rfl

lemma integrate_dt_eq (hn : 0 < n) (c : Config n) (s : SimState n) :
    (integrate hn c s).1.dt = dtAfter hn c s := rfl

lemma integrate_ztNext_eq (hn : 0 < n) (c : Config n) (s : SimState n) :
    (integrate hn c s).1.ztNext = fun i j =>
      (s.ztPrev i j + 2 * ((dtAfter hn c s : ℝ) : ℂ) * rhsF hn c s.zt i j)
        * (del4 c i j : ℂ) := rfl

lemma integrate_zt_eq (hn : 0 < n) (c : Config n) (s : SimState n) :
    (integrate hn c s).1.zt = (integrate hn c s).1.ztNext := rfl

lemma integrate_ztPrev_eq (hn : 0 < n) (c : Config n) (s : SimState n) :
    (integrate hn c s).1.ztPrev = fun i j =>
      raw_filter (s.ztPrev i j) (s.zt i j) ((integrate hn c s).1.ztNext i j) 0.01 :=
  rfl

lemma integrate_z_eq (hn : 0 < n) (c : Config n) (s : SimState n) :
    (integrate hn c s).1.z = ift n hn s.zt := rfl

/-! ## The quiescent (identically zero) state -/

lemma fftn_zeroField : fftn n zeroField = zeroField := by
  funext a b
  simp [fftn, zeroField]

lemma ifftn_zeroField : ifftn n zeroField = zeroField := by
  funext a b
  simp [ifftn, zeroField]

lemma fftshift2_zeroField (hn : 0 < n) : fftshift2 n hn zeroField = zeroField := rfl

lemma ft_zeroField (hn : 0 < n) : ft n hn zeroField = zeroField := by
  rw [ft, fftn_zeroField, fftshift2_zeroField]

lemma ift_zeroField (hn : 0 < n) : ift n hn zeroField = zeroField := by
  rw [ift, fftshift2_zeroField, ifftn_zeroField]

lemma maxAbs_zeroField (hn : 0 < n) : maxAbs hn (zeroField : Field n) = 0 := by
  simp [maxAbs, zeroField]

lemma psiHat_zeroField (c : Config n) : psiHat c zeroField = zeroField := by
  funext i j
  simp [psiHat, zeroField]

lemma grad_fst_zeroField (c : Config n) : (grad c zeroField).1 = zeroField := by
  funext i j
  simp [grad, zeroField]

lemma grad_snd_zeroField (c : Config n) : (grad c zeroField).2 = zeroField := by
  funext i j
  simp [grad, zeroField]

lemma psixF_zeroField (hn : 0 < n) (c : Config n) :
    psixF hn c zeroField = zeroField := by
  rw [psixF, psiHat_zeroField, grad_fst_zeroField, ift_zeroField]

lemma psiyF_zeroField (hn : 0 < n) (c : Config n) :
    psiyF hn c zeroField = zeroField := by
  rw [psiyF, psiHat_zeroField, grad_snd_zeroField, ift_zeroField]

lemma zxF_zeroField (hn : 0 < n) (c : Config n) :
    zxF hn c zeroField = zeroField := by
  rw [zxF, grad_fst_zeroField, ift_zeroField]

lemma zyF_zeroField (hn : 0 < n) (c : Config n) :
    zyF hn c zeroField = zeroField := by
  rw [zyF, grad_snd_zeroField, ift_zeroField]

lemma jacF_zeroField (hn : 0 < n) (c : Config n) :
    jacF hn c zeroField = zeroField := by
  funext i j
  rw [jacF, psixF_zeroField, psiyF_zeroField, zxF_zeroField, zyF_zeroField]
  simp [zeroField]

lemma anti_alias_zeroField (c : Config n) (km : ℝ) :
    anti_alias c zeroField km = zeroField := by
  funext i j
  simp [anti_alias, zeroField]

lemma rhsF_zeroField (hn : 0 < n) (c : Config n) :
    rhsF hn c zeroField = zeroField := by
  funext i j
  rw [rhsF, jacF_zeroField, ft_zeroField, anti_alias_zeroField,
    psiHat_zeroField, grad_fst_zeroField]
  simp [zeroField]

lemma courantOf_zeroField (hn : 0 < n) (c : Config n) (s : SimState n)
    (h2 : s.zt = zeroField) : courantOf hn c s = 0 := by
  rw [courantOf, h2, courant_number, psixF_zeroField, psiyF_zeroField,
    maxAbs_zeroField]
  ring

/-- One step started from a state whose spectral fields are identically zero
returns Courant number `0` and leaves every field identically zero. -/
lemma integrate_zero_state (hn : 0 < n) (c : Config n) (s : SimState n)
    (h1 : s.ztPrev = zeroField) (h2 : s.zt = zeroField) :
    (integrate hn c s).2 = 0
      ∧ (integrate hn c s).1.ztPrev = zeroField
      ∧ (integrate hn c s).1.zt = zeroField
      ∧ (integrate hn c s).1.ztNext = zeroField
      ∧ (integrate hn c s).1.z = zeroField := by
  have hnext : (integrate hn c s).1.ztNext = zeroField := by
    rw [integrate_ztNext_eq]
    funext i j
    rw [h2, rhsF_zeroField]
    simp [h1, zeroField]
  refine ⟨?_, ?_, ?_, hnext, ?_⟩
  · rw [integrate_snd, courantOf_zeroField hn c s h2]
  · rw [integrate_ztPrev_eq]
    funext i j
    rw [hnext, h1, h2]
    simp [raw_filter, zeroField]
  · rw [integrate_zt_eq, hnext]
  · rw [integrate_z_eq, h2, ift_zeroField]

/-! ## Claim theorems -/

/-- C1: every call to `step()` on state `(zt_prev, zt, dt)` produces the
provisional field `zt_next = (zt_prev + 2·dt'·rhs)·del4`, where
`rhs = -anti_alias(ft(jac)) - beta·(ik·psi_hat)` with `psi_hat = -rksq·zt`
(as packaged in `rhsF`) and `dt'` is the timestep after this same call's
Courant adjustment; the new previous state is
`zt + 0.01·(zt_next - 2·zt + zt_prev)` and the new current state is
`zt_next`. -/
theorem claim1_step_formula (hn : 0 < n) (c : Config n) (s : SimState n)
    (i j : Fin n) :
    (integrate hn c s).1.ztNext i j
        = (s.ztPrev i j + 2 * ((dtAfter hn c s : ℝ) : ℂ) * rhsF hn c s.zt i j)
            * (del4 c i j : ℂ)
      ∧ (integrate hn c s).1.ztPrev i j
        = s.zt i j + 0.01 * ((integrate hn c s).1.ztNext i j
            - 2 * s.zt i j + s.ztPrev i j)
      ∧ (integrate hn c s).1.zt i j = (integrate hn c s).1.ztNext i j
      ∧ (integrate hn c s).1.dt = dtAfter hn c s :=
  ⟨rfl, rfl, rfl, rfl⟩

/-- Witness for C1 at a concrete resolution-1 configuration and state. -/
theorem claim1_step_formula_witness :
    (integrate Nat.one_pos cW sW).1.zt 0 0
      = (integrate Nat.one_pos cW sW).1.ztNext 0 0 :=
  (claim1_step_formula Nat.one_pos cW sW 0 0).2.2.1

/-- C2: the Courant number returned by `step()` is computed from the current
step's velocities and the timestep held at entry; if `c > SLOWDN_AT_C` the
updated `dt` is `0.9×` the entry `dt`; otherwise if `c < SPEEDUP_AT_C` and
speedup is enabled the updated `dt` is `1.1×` the entry `dt`; in every other
case `dt` is unchanged; and the updated `dt` is the one used in this same
call's leapfrog advance. -/
theorem claim2_courant_adaptation (hn : 0 < n) (c : Config n) (s : SimState n) :
    (integrate hn c s).2
        = courant_number hn (psixF hn c s.zt) (psiyF hn c s.zt) (dx c) s.dt
      ∧ ((integrate hn c s).2 > c.SLOWDN_AT_C →
          (integrate hn c s).1.dt = 0.9 * s.dt)
      ∧ (¬ (integrate hn c s).2 > c.SLOWDN_AT_C →
          (integrate hn c s).2 < c.SPEEDUP_AT_C → c.ALLOW_SPEEDUP = true →
          (integrate hn c s).1.dt = 1.1 * s.dt)
      ∧ (¬ (integrate hn c s).2 > c.SLOWDN_AT_C →
          ¬ ((integrate hn c s).2 < c.SPEEDUP_AT_C ∧ c.ALLOW_SPEEDUP = true) →
          (integrate hn c s).1.dt = s.dt)
      ∧ (∀ i j : Fin n, (integrate hn c s).1.ztNext i j
          = (s.ztPrev i j + 2 * (((integrate hn c s).1.dt : ℝ) : ℂ)
              * rhsF hn c s.zt i j) * (del4 c i j : ℂ)) := by
  refine ⟨rfl, fun h => ?_, fun h1 h2 h3 => ?_, fun h1 h2 => ?_, fun i j => rfl⟩
  · have h' : courantOf hn c s > c.SLOWDN_AT_C := h
    rw [integrate_dt_eq, dtAfter, if_pos h']
  · have h1' : ¬ courantOf hn c s > c.SLOWDN_AT_C := h1
    have h2' : courantOf hn c s < c.SPEEDUP_AT_C := h2
    rw [integrate_dt_eq, dtAfter, if_neg h1', if_pos ⟨h2', h3⟩]
  · have h1' : ¬ courantOf hn c s > c.SLOWDN_AT_C := h1
    have h2' : ¬ (courantOf hn c s < c.SPEEDUP_AT_C ∧ c.ALLOW_SPEEDUP = true) := h2
    rw [integrate_dt_eq, dtAfter, if_neg h1', if_neg h2']

/-- Witness for C2: at a quiescent resolution-1 state with speedup disabled,
the Courant number is below both thresholds and `dt` is unchanged. -/
theorem claim2_courant_adaptation_witness :
    (integrate Nat.one_pos cW sW).1.dt = sW.dt := by
  have hz := integrate_zero_state Nat.one_pos cW sW rfl rfl
  refine (claim2_courant_adaptation Nat.one_pos cW sW).2.2.2.1 ?_ ?_
  · rw [hz.1]
    norm_num [cW]
  · rintro ⟨-, hflag⟩
    simp [cW] at hflag

/-- C3: after `anti_alias` with cutoff `k_max`, every coefficient at a
position with `|kk| ≥ k_max` or `|ll| ≥ k_max` is exactly zero, and every
other coefficient is unchanged. -/
theorem claim3_anti_alias_mask (c : Config n) (φt : Field n) (km : ℝ)
    (i j : Fin n) :
    ((|kk c i j| ≥ km ∨ |ll c i j| ≥ km) → anti_alias c φt km i j = 0)
      ∧ (|kk c i j| < km → |ll c i j| < km →
          anti_alias c φt km i j = φt i j) := by
  constructor
  · intro h
    show (if |kk c i j| ≥ km ∨ |ll c i j| ≥ km then 0 else φt i j) = 0
    rw [if_pos h]
  · intro h1 h2
    show (if |kk c i j| ≥ km ∨ |ll c i j| ≥ km then 0 else φt i j) = φt i j
    rw [if_neg (by push_neg; exact ⟨h1, h2⟩)]

/-- Witness for C3: on the resolution-1 grid the single wavenumber has
modulus `π`; a cutoff of 4 keeps the coefficient, a cutoff of 0 zeroes it. -/
theorem claim3_anti_alias_mask_witness :
    anti_alias cW (fun _ _ => (5 : ℂ)) 4 0 0 = (5 : ℂ)
      ∧ anti_alias cW (fun _ _ => (5 : ℂ)) 0 0 0 = 0 := by
  have hkk : kk cW 0 0 = -Real.pi := by
    simp [kk, k, dk, cW]
  have habs : |kk cW 0 0| < 4 := by
    rw [hkk, abs_neg, abs_of_nonneg Real.pi_pos.le]
    linarith [Real.pi_lt_d2]
  have hll : |ll cW 0 0| < 4 := by
    have hl : ll cW 0 0 = -Real.pi := by
      simp [ll, l, dk, cW]
    rw [hl, abs_neg, abs_of_nonneg Real.pi_pos.le]
    linarith [Real.pi_lt_d2]
  exact ⟨(claim3_anti_alias_mask cW _ 4 0 0).2 habs hll,
    (claim3_anti_alias_mask cW _ 0 0 0).1 (Or.inl (abs_nonneg _))⟩

/-- C6: if the simulation state is identically zero then every call to
`step()` returns Courant number 0 and leaves `zt`, `zt_prev`, `zt_next` and
`z` identically zero, for an unbounded number of consecutive steps. -/
theorem claim6_quiescent_invariant (hn : 0 < n) (c : Config n) (s : SimState n)
    (h1 : s.ztPrev = zeroField) (h2 : s.zt = zeroField)
    (h3 : s.ztNext = zeroField) (h4 : s.z = zeroField) (m : ℕ) :
    (stepIter hn c m s).ztPrev = zeroField
      ∧ (stepIter hn c m s).zt = zeroField
      ∧ (stepIter hn c m s).ztNext = zeroField
      ∧ (stepIter hn c m s).z = zeroField
      ∧ (integrate hn c (stepIter hn c m s)).2 = 0 := by
  induction m with
  | zero =>
      exact ⟨h1, h2, h3, h4, (integrate_zero_state hn c s h1 h2).1⟩
  | succ m ih =>
      obtain ⟨p1, p2, p3, p4, p5⟩ := ih
      have hz := integrate_zero_state hn c (stepIter hn c m s) p1 p2
      simp only [stepIter]
      exact ⟨hz.2.1, hz.2.2.1, hz.2.2.2.1, hz.2.2.2.2,
        (integrate_zero_state hn c _ hz.2.1 hz.2.2.1).1⟩

/-- Witness for C6: three steps from the concrete quiescent state stay
identically zero with Courant number 0. -/
theorem claim6_quiescent_invariant_witness :
    (stepIter Nat.one_pos cW 3 sW).zt = zeroField
      ∧ (integrate Nat.one_pos cW (stepIter Nat.one_pos cW 3 sW)).2 = 0 := by
  have h := claim6_quiescent_invariant Nat.one_pos cW sW rfl rfl rfl rfl 3
  exact ⟨h.2.1, h.2.2.2.2⟩

/-- C9: if the configured initial-condition name is not registered in `ICS`,
setup aborts with an error before any stepping, and never produces an
initial condition. -/
theorem claim9_unknown_ic_fails (name : String)
    (h : List.lookup name ICS = none) :
    setupIC name = Except.error ("Unknown initial condition " ++ name)
      ∧ ∀ f, setupIC name ≠ Except.ok f := by
  have hset : setupIC name
      = Except.error ("Unknown initial condition " ++ name) := by
    simp [setupIC, h]
  exact ⟨hset, fun f hok => by rw [hset] at hok; exact Except.noConfusion hok⟩

/-- Witness for C9: the unregistered name `"zonal"` makes setup fail. -/
theorem claim9_unknown_ic_fails_witness :
    setupIC "zonal" = Except.error ("Unknown initial condition " ++ "zonal") :=
  (claim9_unknown_ic_fails "zonal" rfl).1

lemma dk_pos (c : Config n) (hd : 0 < c.domain) : 0 < dk c := by
  rw [dk]
  positivity

lemma half_cast (hev : n % 2 = 0) : ((n / 2 : ℕ) : ℝ) = (n : ℝ) / 2 := by
  have h2 : n / 2 * 2 = n := by omega
  field_simp
  exact_mod_cast congrArg (Nat.cast (R := ℝ)) h2

lemma k_eq_zero_iff (c : Config n) (hd : 0 < c.domain) (j : Fin n) :
    k c j = 0 ↔ ((j : ℕ) : ℝ) = (n : ℝ) / 2 := by
  rw [k]
  constructor
  · intro h
    rcases mul_eq_zero.mp h with h | h
    · linarith
    · exact absurd h (ne_of_gt (dk_pos c hd))
  · intro h
    rw [h]
    ring

/-- C4: for every complex field `F` of shape `(n,n)` with `n` even (as in the
source, where `n = 128`), `ift(ft(F)) = F` exactly: the forward transform with
its center-shift is inverted by re-shifting and inverse-transforming. -/
theorem claim4_round_trip (hn : 0 < n) (hev : n % 2 = 0) (F : Field n) :
    ift n hn (ft n hn F) = F := by
  rw [ft, ift, fftshift2_fftshift2 n hn hev, ifftn_fftn n hn]

/-- Witness for C4 at `n = 2` on a concrete constant field. -/
theorem claim4_round_trip_witness :
    ift 2 Nat.zero_lt_two (ft 2 Nat.zero_lt_two (fun _ _ => (3 : ℂ)))
      = fun _ _ => (3 : ℂ) :=
  claim4_round_trip Nat.zero_lt_two (by norm_num) _

/-- C5: exactly one cell of the wavenumber mesh has `kk = ll = 0`; every
entry of the corrected `ksq` is nonzero (the zero cell having been set to 1),
so its reciprocal `rksq` is a genuine finite reciprocal at every cell and the
Poisson solve divides by zero nowhere. -/
theorem claim5_zero_mode_safety (hn : 0 < n) (hev : n % 2 = 0) (c : Config n)
    (hd : 0 < c.domain) :
    (∃! p : Fin n × Fin n, kk c p.1 p.2 = 0 ∧ ll c p.1 p.2 = 0)
      ∧ (∀ i j : Fin n, ksq c i j ≠ 0)
      ∧ (∀ i j : Fin n, rksq c i j * ksq c i j = 1)
      ∧ (∀ i j : Fin n, kk c i j = 0 → ll c i j = 0 → ksq c i j = 1) := by
  have hksq_ne : ∀ i j : Fin n, ksq c i j ≠ 0 := by
    intro i j
    rw [ksq]
    split_ifs with h
    · norm_num
    · exact h
  refine ⟨?_, hksq_ne, fun i j => ?_, fun i j hk hl => ?_⟩
  · have hhalf : n / 2 < n := Nat.div_lt_self hn (by norm_num)
    refine ⟨(⟨n / 2, hhalf⟩, ⟨n / 2, hhalf⟩), ⟨?_, ?_⟩, ?_⟩
    · rw [kk, k_eq_zero_iff c hd]
      exact half_cast hev
    · show l c ⟨n / 2, hhalf⟩ = 0
      have : l c ⟨n / 2, hhalf⟩ = k c ⟨n / 2, hhalf⟩ := rfl
      rw [this, k_eq_zero_iff c hd]
      exact half_cast hev
    · rintro ⟨p1, p2⟩ ⟨hp1, hp2⟩
      have e1 : ((p2 : ℕ) : ℝ) = (n : ℝ) / 2 := (k_eq_zero_iff c hd p2).mp hp1
      have e2 : ((p1 : ℕ) : ℝ) = (n : ℝ) / 2 := by
        have : l c p1 = 0 := hp2
        exact (k_eq_zero_iff c hd p1).mp this
      have v1 : (p1 : ℕ) = n / 2 := by
        have := e2.trans (half_cast hev).symm
        exact_mod_cast this
      have v2 : (p2 : ℕ) = n / 2 := by
        have := e1.trans (half_cast hev).symm
        exact_mod_cast this
      exact Prod.ext (Fin.ext v1) (Fin.ext v2)
  · rw [rksq, one_div, inv_mul_cancel₀ (hksq_ne i j)]
  · rw [ksq, ksq0, hk, hl, if_pos (by ring)]

/-- Witness for C5 at `n = 2`, `domain = 1`. -/
theorem claim5_zero_mode_safety_witness :
    (∃! p : Fin 2 × Fin 2, kk c2 p.1 p.2 = 0 ∧ ll c2 p.1 p.2 = 0)
      ∧ ksq c2 0 0 ≠ 0 := by
  have h := claim5_zero_mode_safety Nat.zero_lt_two (by norm_num) c2 (by norm_num [c2])
  exact ⟨h.1, h.2.1 0 0⟩

/-- C7: with `k_max = AA_FAC·2·(2π/domain)`, the setting `AA_FAC = 0` makes
`anti_alias` zero every coefficient, and `AA_FAC = n` makes it zero none
(every grid wavenumber has magnitude strictly below `k_max`). -/
theorem claim7_aa_fac_extremes (hn : 0 < n) (c : Config n) (φt : Field n)
    (i j : Fin n) :
    (c.AA_FAC = 0 → anti_alias c φt (k_max c) i j = 0)
      ∧ (c.AA_FAC = (n : ℝ) → 0 < c.domain →
          anti_alias c φt (k_max c) i j = φt i j) := by
  constructor
  · intro h
    show (if |kk c i j| ≥ k_max c ∨ |ll c i j| ≥ k_max c then 0 else φt i j) = 0
    rw [if_pos]
    left
    rw [k_max, h, show (0 : ℝ) * 2 * dk c = 0 from by ring]
    exact abs_nonneg (kk c i j)
  · intro h hd
    have hdk := dk_pos c hd
    have hbound : ∀ m : Fin n, |k c m| < k_max c := by
      intro m
      simp only [k, k_max, h]
      have hm0 : (0 : ℝ) ≤ ((m : ℕ) : ℝ) := Nat.cast_nonneg _
      have hmn : ((m : ℕ) : ℝ) < (n : ℝ) := by exact_mod_cast m.isLt
      have hnpos : (0 : ℝ) < (n : ℝ) := by exact_mod_cast hn
      have habs : |((m : ℕ) : ℝ) - (n : ℝ) / 2| ≤ (n : ℝ) / 2 := by
        rw [abs_le]
        constructor <;> linarith
      rw [abs_mul, abs_of_pos hdk]
      calc |((m : ℕ) : ℝ) - (n : ℝ) / 2| * dk c
          ≤ ((n : ℝ) / 2) * dk c := mul_le_mul_of_nonneg_right habs hdk.le
        _ < (n : ℝ) * 2 * dk c := by nlinarith
    show (if |kk c i j| ≥ k_max c ∨ |ll c i j| ≥ k_max c then 0 else φt i j)
      = φt i j
    rw [if_neg]
    push_neg
    exact ⟨hbound j, hbound i⟩

/-- Witness for C7 at resolution 1: `AA_FAC = 0` zeroes the coefficient,
`AA_FAC = n = 1` keeps it. -/
theorem claim7_aa_fac_extremes_witness :
    anti_alias cW0 (fun _ _ => (5 : ℂ)) (k_max cW0) 0 0 = 0
      ∧ anti_alias cW (fun _ _ => (5 : ℂ)) (k_max cW) 0 0 = (5 : ℂ) := by
  constructor
  · exact (claim7_aa_fac_extremes Nat.one_pos cW0 _ 0 0).1 (by norm_num [cW0])
  · exact (claim7_aa_fac_extremes Nat.one_pos cW _ 0 0).2
      (by norm_num [cW]) (by norm_num [cW])

/-- C10: because the zero-wavenumber entry of `ksq` is 1, `del4` there equals
`1/(1 + nu·dt)`, which is strictly below 1 for positive `nu` and `dt`, and
every step multiplies the zero-wavenumber coefficient of the advanced
vorticity by exactly this factor. -/
theorem claim10_mean_mode_damped (hn : 0 < n) (hev : n % 2 = 0) (c : Config n)
    (hd : 0 < c.domain) (ht : 0 < c.tau) (hn3 : 3 ≤ n) (hdt : 0 < c.dt0) :
    del4 c (halfIdx hn) (halfIdx hn) = 1 / (1 + nu c * c.dt0)
      ∧ 0 < nu c
      ∧ 1 / (1 + nu c * c.dt0) < 1
      ∧ ∀ s : SimState n, (integrate hn c s).1.ztNext (halfIdx hn) (halfIdx hn)
          = (s.ztPrev (halfIdx hn) (halfIdx hn)
              + 2 * ((dtAfter hn c s : ℝ) : ℂ)
                * rhsF hn c s.zt (halfIdx hn) (halfIdx hn))
            * ((1 / (1 + nu c * c.dt0) : ℝ) : ℂ) := by
  have hk0 : k c (halfIdx hn) = 0 := by
    rw [k_eq_zero_iff c hd]
    show ((n / 2 : ℕ) : ℝ) = (n : ℝ) / 2
    exact half_cast hev
  have hksq1 : ksq c (halfIdx hn) (halfIdx hn) = 1 := by
    rw [ksq, ksq0]
    have hkk : kk c (halfIdx hn) (halfIdx hn) = 0 := hk0
    have hll : ll c (halfIdx hn) (halfIdx hn) = 0 := hk0
    rw [hkk, hll, if_pos (by ring)]
  have hdel : del4 c (halfIdx hn) (halfIdx hn) = 1 / (1 + nu c * c.dt0) := by
    rw [del4, hksq1]
    norm_num
  have hfl : (1 : ℤ) ≤ ⌊(n : ℝ) / 3⌋ := by
    refine Int.le_floor.mpr ?_
    have : (3 : ℝ) ≤ (n : ℝ) := by exact_mod_cast hn3
    push_cast
    linarith
  have hflR : (0 : ℝ) < ((⌊(n : ℝ) / 3⌋ : ℤ) : ℝ) := by
    have : (1 : ℝ) ≤ ((⌊(n : ℝ) / 3⌋ : ℤ) : ℝ) := by exact_mod_cast hfl
    linarith
  have hnu : 0 < nu c := by
    rw [nu]
    have hbase : 0 < c.domain / (((⌊(n : ℝ) / 3⌋ : ℤ) : ℝ) * (2 * Real.pi)) :=
      div_pos hd (mul_pos hflR (by positivity))
    exact div_pos (pow_pos hbase 4) ht
  have hlt : 1 / (1 + nu c * c.dt0) < 1 := by
    have h1 : (1 : ℝ) < 1 + nu c * c.dt0 := by nlinarith
    rw [div_lt_one (by linarith)]
    exact h1
  refine ⟨hdel, hnu, hlt, fun s => ?_⟩
  have hrfl : (integrate hn c s).1.ztNext (halfIdx hn) (halfIdx hn)
      = (s.ztPrev (halfIdx hn) (halfIdx hn)
          + 2 * ((dtAfter hn c s : ℝ) : ℂ)
            * rhsF hn c s.zt (halfIdx hn) (halfIdx hn))
        * ((del4 c (halfIdx hn) (halfIdx hn) : ℝ) : ℂ) := rfl
  rw [hrfl, hdel]

/-- Witness for C10 at `n = 4`, `domain = 1`, `tau = 0.1`, `dt0 = 0.1`. -/
theorem claim10_mean_mode_damped_witness :
    del4 c4 (halfIdx (by norm_num)) (halfIdx (by norm_num))
        = 1 / (1 + nu c4 * c4.dt0)
      ∧ 1 / (1 + nu c4 * c4.dt0) < 1 := by
  have h := claim10_mean_mode_damped (by norm_num) (by norm_num) c4
    (by norm_num [c4]) (by norm_num [c4]) (by norm_num) (by norm_num [c4])
  exact ⟨h.1, h.2.2.1⟩

/-- Counterexample to C8 as stated: on the source's own grid (`n = 128`,
`domain = 1`) the entry `k[0] = -64·dk` has no negation `+64·dk` in the
array, so the array is not symmetric around zero in the claimed sense. -/
theorem claim8_symmetry_counterexample :
    ¬ (∀ j : Fin 128, ∃ j' : Fin 128, k c128 j' = -(k c128 j)) := by
  intro h
  obtain ⟨j', hj'⟩ := h 0
  have hval : ((j' : ℕ) : ℝ) < 128 := by exact_mod_cast j'.isLt
  have hpi := Real.pi_pos
  simp only [k, dk, c128, Fin.val_zero, Nat.cast_ofNat, Nat.cast_zero] at hj'
  norm_num at hj'
  rcases hj' with h64 | hp0
  · linarith
  · exact absurd hp0 (ne_of_gt hpi)

/-- C8 amended: `k` and `l` have length `n`, spacing `2π/domain`, are
strictly increasing, take exactly the values `(j - n/2)·(2π/domain)` for
`j = 0..n-1` (the `n` equally spaced values in `[-n/2, n/2)` scaled by
`2π/domain`), and every entry except the minimum `-(n/2)·(2π/domain)` has
its negation in the array. -/
theorem claim8_wavenumber_array_props (c : Config n)
    (hd : 0 < c.domain) :
    (∀ i j : Fin n, (j : ℕ) = (i : ℕ) + 1 → k c j - k c i = dk c)
      ∧ (∀ i j : Fin n, i < j → k c i < k c j)
      ∧ (∀ j : Fin n, k c j = (((j : ℕ) : ℝ) - (n : ℝ) / 2) * dk c
          ∧ -((n : ℝ) / 2) * dk c ≤ k c j ∧ k c j < ((n : ℝ) / 2) * dk c)
      ∧ (∀ j : Fin n, (j : ℕ) ≠ 0 → ∃ j' : Fin n, k c j' = -(k c j))
      ∧ l c = k c := by
  have hdk := dk_pos c hd
  refine ⟨?_, ?_, ?_, ?_, rfl⟩
  · intro i j hij
    simp only [k]
    rw [hij]
    push_cast
    ring
  · intro i j hij
    simp only [k]
    have hc : ((i : ℕ) : ℝ) < ((j : ℕ) : ℝ) := by exact_mod_cast hij
    exact mul_lt_mul_of_pos_right (by linarith) hdk
  · intro j
    refine ⟨rfl, ?_, ?_⟩
    · simp only [k]
      have h0 : (0 : ℝ) ≤ ((j : ℕ) : ℝ) := Nat.cast_nonneg _
      exact mul_le_mul_of_nonneg_right (by linarith) hdk.le
    · simp only [k]
      have hjn : ((j : ℕ) : ℝ) < (n : ℝ) := by exact_mod_cast j.isLt
      exact mul_lt_mul_of_pos_right (by linarith) hdk
  · intro j hj0
    have hjn : (j : ℕ) < n := j.isLt
    refine ⟨⟨n - (j : ℕ), by omega⟩, ?_⟩
    show (((n - (j : ℕ) : ℕ) : ℝ) - (n : ℝ) / 2) * dk c
      = -((((j : ℕ) : ℝ) - (n : ℝ) / 2) * dk c)
    have hcast : ((n - (j : ℕ) : ℕ) : ℝ) = (n : ℝ) - ((j : ℕ) : ℝ) := by
      push_cast [Nat.cast_sub hjn.le]
      ring
    rw [hcast]
    ring

/-- Witness for the amended C8 at `n = 2`, `domain = 1`: unit spacing in
`dk`, strict monotonicity, and the nonminimal entry's negation present. -/
theorem claim8_wavenumber_array_props_witness :
    (k c2 1 - k c2 0 = dk c2) ∧ (k c2 0 < k c2 1)
      ∧ ∃ j' : Fin 2, k c2 j' = -(k c2 1) := by
  have h := claim8_wavenumber_array_props c2 (by norm_num [c2])
  exact ⟨h.1 0 1 rfl, h.2.1 0 1 (by norm_num), h.2.2.2.1 1 (by norm_num)⟩

end BaroVort
